import Mathlib

/-!
Verification of the agglomerative hierarchical clustering engine
(`hierarchicalAlgorithm.py`, function `hierarchical_clustering` and its
inner helpers) against its natural-language specification.

The embedding is a direct shallow translation of the Python source:

* points are rows of rational coordinates (`List (List ℚ)`); real-number
  square roots (NumPy `np.sqrt`, SciPy's Euclidean metric) are abstracted
  by an explicit function parameter `sqrtF : ℚ → ℚ`, which is applied to
  exactly the radicands the source passes to the floating-point `sqrt`
  (for the concrete runs below all radicands are perfect squares, so the
  executable `psqrt` below agrees with the mathematical square root);
* clusters are `(identifier, member list)` pairs exactly as in the source;
* Python runtime errors (the `UnboundLocalError` raised inside
  `update_distance_matrix` for an unknown method name, the `IndexError`
  raised by `linkage_matrix[:, 2]` on an empty 1-D array, and the failure
  of the pair-selection loop when fewer than two clusters are active) are
  modelled by `Option`, `none` meaning "raises";
* the `while` loop is written as fuel recursion; the top-level call
  supplies fuel `N + 1`, which is never exhausted because every executed
  iteration removes exactly one active cluster.
-/

/-- Cluster, as in the source: `(identifier, member list)`. -/
abbrev Cluster : Type := ℕ × List ℕ

/-- One row of the linkage matrix: `[left id, right id, distance, size]`. -/
structure LinkRow where
  left : ℕ
  right : ℕ
  dist : ℚ
  size : ℕ
deriving DecidableEq

/-- Integer square root by exhaustive search (kernel-reducible; exact on
perfect squares, which is all the concrete runs below need). -/
def isqrt (n : ℕ) : ℕ :=
  ((List.range (n + 1)).filter (fun m => decide (m * m ≤ n))).length - 1

/-- An executable stand-in for the floating-point square root, exact on
perfect squares of naturals (`psqrt 25 = 5`). -/
def psqrt (q : ℚ) : ℚ := (isqrt q.num.toNat : ℚ) / (isqrt q.den : ℚ)

/-- `_condensed_index(n, i, j)` from the source: position of the pair
`(i, j)` in the condensed distance array of an `n × n` matrix; `0` when
`i == j`. -/
def condensed_index (n i j : ℕ) : ℕ :=
  if i < j then n * i - i * (i + 1) / 2 + (j - i - 1)
  else if j < i then n * j - j * (j + 1) / 2 + (i - j - 1)
  else 0

/-- The scan order `for i in range(k): for j in range(i+1, k)` used both by
`pdist`'s condensed layout and by the pair-selection loop. -/
def scan_pairs (k : ℕ) : List (ℕ × ℕ) :=
  ((List.range k).map (fun i =>
    (List.range' (i + 1) (k - (i + 1))).map (fun j => (i, j)))).flatten

/-- Squared Euclidean distance between two coordinate rows. -/
def sqDist (x y : List ℚ) : ℚ :=
  ((x.zip y).map (fun p => (p.1 - p.2) ^ 2)).sum

/-- `compute_distance_matrix` / `scipy.spatial.distance.pdist`: condensed
vector of pairwise Euclidean distances. -/
def compute_distance_matrix (data : List (List ℚ)) (sqrtF : ℚ → ℚ) : List ℚ :=
  (scan_pairs data.length).map
    (fun p => sqrtF (sqDist (data.getD p.1 []) (data.getD p.2 [])))

/-- `len(clusters[i][1])`: member count of the cluster in slot `i`. -/
def cluster_size (clusters : List Cluster) (i : ℕ) : ℕ :=
  ((clusters.getD i (0, [])).2).length

/-- `clusters[i][1][0]`: first member of the cluster in slot `i` (used by
the pair-selection loop to index the condensed array). -/
def first_member (clusters : List Cluster) (i : ℕ) : ℕ :=
  ((clusters.getD i (0, [])).2).headD 0

/-- The per-neighbour body of `update_distance_matrix`: the if/elif chain on
the method name.  `none` models the `UnboundLocalError` (`new_dist` is
unbound) that an unknown method name raises at `new_distances.append`. -/
def new_dist (method : String) (sqrtF : ℚ → ℚ) (ca cb ci : ℕ)
    (da db dab : ℚ) : Option ℚ :=
  if method = "single" then some (min da db)
  else if method = "complete" then some (max da db)
  else if method = "average" then
    some (((ca : ℚ) * da + (cb : ℚ) * db) / ((ca : ℚ) + (cb : ℚ)))
  else if method = "centroid" then
    some (sqrtF (((ca : ℚ) * da ^ 2 + (cb : ℚ) * db ^ 2) / ((ca : ℚ) + (cb : ℚ)) -
      ((ca : ℚ) * (cb : ℚ) * dab ^ 2) / (((ca : ℚ) + (cb : ℚ)) ^ 2)))
  else if method = "ward" then
    some (sqrtF ((((ca : ℚ) + (ci : ℚ)) * da ^ 2 + ((cb : ℚ) + (ci : ℚ)) * db ^ 2 -
      (ci : ℚ) * dab ^ 2) / ((ca : ℚ) + (cb : ℚ) + (ci : ℚ))))
  else none

/-- `update_distance_matrix(dist_vector, a, b, clusters, method)`: one new
distance per remaining slot `i ≠ a, b`, in increasing slot order, produced
by the Lance-Williams branch of the active method.  Indices into
`dist_vector` use `n = len(clusters)` exactly as the source does. -/
def update_distance_matrix (dist_vector : List ℚ) (a b : ℕ)
    (clusters : List Cluster) (method : String) (sqrtF : ℚ → ℚ) :
    Option (List ℚ) :=
  let n := clusters.length
  ((List.range n).filter (fun i => decide (i ≠ a ∧ i ≠ b))).mapM (fun i =>
    new_dist method sqrtF (cluster_size clusters a) (cluster_size clusters b)
      (cluster_size clusters i)
      (dist_vector.getD (condensed_index n a i) 0)
      (dist_vector.getD (condensed_index n b i) 0)
      (dist_vector.getD (condensed_index n a b) 0))

/-- `merge_clusters(clusters, a, b, index)`: drop the entries at slots `a`
and `b` (keeping everybody else in order) and append the new cluster, whose
member list is `clusters[a][1] + clusters[b][1]` and whose identifier is
the running counter value. -/
def merge_clusters (clusters : List Cluster) (a b idx : ℕ) : List Cluster :=
  ((List.range clusters.length).filter (fun i => decide (i ≠ a ∧ i ≠ b))).map
      (fun i => clusters.getD i (0, []))
    ++ [(idx, (clusters.getD a (0, [])).2 ++ (clusters.getD b (0, [])).2)]

/-- One comparison of the pair-selection scan: keep the incumbent unless the
new pair is strictly closer (`dist < min_dist`, initial value `np.inf`
modelled by `none`). -/
def sel_fold (dist_vector : List ℚ) (n : ℕ) (clusters : List Cluster)
    (best : Option (ℕ × ℕ × ℚ)) (p : ℕ × ℕ) : Option (ℕ × ℕ × ℚ) :=
  match best with
  | none => some (p.1, p.2, dist_vector.getD
      (condensed_index n (first_member clusters p.1) (first_member clusters p.2)) 0)
  | some q =>
    if dist_vector.getD
        (condensed_index n (first_member clusters p.1) (first_member clusters p.2)) 0
        < q.2.2 then
      some (p.1, p.2, dist_vector.getD
        (condensed_index n (first_member clusters p.1) (first_member clusters p.2)) 0)
    else some q

/-- The pair-selection double loop of `hierarchical_clustering`: scans all
slot pairs `i < j` in order and keeps the first strict minimum.  Note that,
as in the source, the condensed lookup uses the ORIGINAL point count `n`
and the first members `clusters[i][1][0]`, `clusters[j][1][0]`. -/
def select_pair (dist_vector : List ℚ) (n : ℕ) (clusters : List Cluster) :
    Option (ℕ × ℕ × ℚ) :=
  (scan_pairs clusters.length).foldl (sel_fold dist_vector n clusters) none

/-- The mutable state of the main loop. -/
structure EngineState where
  clusters : List Cluster
  dist_vector : List ℚ
  linkage_matrix : List LinkRow
  index : ℕ
deriving DecidableEq

/-- One iteration of the `while` loop: select the closest pair, record the
merge event, compute the Lance-Williams updates, merge the two clusters,
and splice the distance vector (`dist_vector[:k] + dist_vector[k+1:] +
new_distances` with `k = _condensed_index(n, a, b)`). -/
def step (n : ℕ) (method : String) (sqrtF : ℚ → ℚ) (s : EngineState) :
    Option EngineState :=
  match select_pair s.dist_vector n s.clusters with
  | none => none
  | some (a, b, min_dist) =>
    match update_distance_matrix s.dist_vector a b s.clusters method sqrtF with
    | none => none
    | some new_distances =>
      let k := condensed_index n a b
      some
        { clusters := merge_clusters s.clusters a b s.index
          dist_vector :=
            s.dist_vector.take k ++ s.dist_vector.drop (k + 1) ++ new_distances
          linkage_matrix := s.linkage_matrix ++
            [⟨(s.clusters.getD a (0, [])).1, (s.clusters.getD b (0, [])).1,
              min_dist,
              cluster_size s.clusters a + cluster_size s.clusters b⟩]
          index := s.index + 1 }

/-- The `while len(clusters) > num_clusters` loop, as fuel recursion.  The
top level passes fuel `N + 1`, which is never exhausted (each iteration
removes one cluster, so at most `N` iterations run before the guard fails
or an iteration raises). -/
def cluster_loop (n : ℕ) (method : String) (sqrtF : ℚ → ℚ)
    (num_clusters : ℕ) : ℕ → EngineState → Option (List LinkRow × List Cluster)
  | fuel, s =>
    if s.clusters.length ≤ num_clusters then some (s.linkage_matrix, s.clusters)
    else
      match fuel, step n method sqrtF s with
      | 0, _ => none
      | _ + 1, none => none
      | fuel' + 1, some s' => cluster_loop n method sqrtF num_clusters fuel' s'

/-- The state `hierarchical_clustering` builds before entering the loop:
singleton clusters `(i, [i])`, the condensed `pdist` vector, an empty
linkage record, and the merged-cluster id counter starting at `N`. -/
def initState (data : List (List ℚ)) (sqrtF : ℚ → ℚ) : EngineState :=
  { clusters := (List.range data.length).map (fun i => (i, [i]))
    dist_vector := compute_distance_matrix data sqrtF
    linkage_matrix := []
    index := data.length }

/-- Ordering of linkage rows by merge distance. -/
def distLE (x y : LinkRow) : Prop := x.dist ≤ y.dist

instance : DecidableRel distLE :=
  fun x y => inferInstanceAs (Decidable (x.dist ≤ y.dist))

instance : IsTotal LinkRow distLE := ⟨fun x y => le_total x.dist y.dist⟩

instance : IsTrans LinkRow distLE := ⟨fun _ _ _ h h' => le_trans h h'⟩

/-- `hierarchical_clustering(df, method, num_clusters)`.  The final
`linkage_matrix[linkage_matrix[:, 2].argsort()]` sorts the record by the
distance column; on an empty record `np.array([])` is 1-D and the `[:, 2]`
indexing raises `IndexError`, modelled by `none`. -/
def hierarchical_clustering (data : List (List ℚ)) (method : String)
    (sqrtF : ℚ → ℚ) (num_clusters : ℕ) :
    Option (List LinkRow × List Cluster) :=
  match cluster_loop data.length method sqrtF num_clusters (data.length + 1)
      (initState data sqrtF) with
  | none => none
  | some (rows, cl) =>
    match rows with
    | [] => none
    | _ :: _ => some (List.insertionSort distLE rows, cl)

/-- The five linkage-method names the source's if/elif chain recognises. -/
def validMethod (method : String) : Prop :=
  method = "single" ∨ method = "complete" ∨ method = "average" ∨
  method = "centroid" ∨ method = "ward"

/-- Modelled from the spec: the Lance-Williams update formulas exactly as
section 4.3 of the specification states them, one per linkage method, as a
function of the pre-merge distances `d(a,i)`, `d(b,i)`, `d(a,b)` and the
member-set sizes of the clusters `a`, `b`, `i`. -/
def lanceWilliamsSpec (method : String) (sqrtF : ℚ → ℚ) (sa sb si : ℕ)
    (dai dbi dab : ℚ) : ℚ :=
  if method = "single" then min dai dbi
  else if method = "complete" then max dai dbi
  else if method = "average" then
    ((sa : ℚ) * dai + (sb : ℚ) * dbi) / ((sa : ℚ) + (sb : ℚ))
  else if method = "centroid" then
    sqrtF (((sa : ℚ) * dai ^ 2 + (sb : ℚ) * dbi ^ 2) / ((sa : ℚ) + (sb : ℚ)) -
      (sa : ℚ) * (sb : ℚ) * dab ^ 2 / (((sa : ℚ) + (sb : ℚ)) ^ 2))
  else if method = "ward" then
    sqrtF ((((sa : ℚ) + (si : ℚ)) * dai ^ 2 + ((sb : ℚ) + (si : ℚ)) * dbi ^ 2 -
      (si : ℚ) * dab ^ 2) / ((sa : ℚ) + (sb : ℚ) + (si : ℚ)))
  else 0

/-- All original point indices held by the active clusters, in slot order. -/
def members_join (cl : List Cluster) : List ℕ := (cl.map Prod.snd).flatten

/-! ## Helper lemmas -/

lemma mem_scan_pairs {k a b : ℕ} (h : (a, b) ∈ scan_pairs k) :
    a < b ∧ b < k := by
  unfold scan_pairs at h
  rw [List.mem_flatten] at h
  obtain ⟨L, hL, hmem⟩ := h
  rw [List.mem_map] at hL
  obtain ⟨i, hi, rfl⟩ := hL
  rw [List.mem_map] at hmem
  obtain ⟨j, hj, hpair⟩ := hmem
  cases hpair
  rw [List.mem_range'_1] at hj
  rw [List.mem_range] at hi
  omega

lemma scan_pairs_ne_nil {k : ℕ} (h : 2 ≤ k) : scan_pairs k ≠ [] := by
  apply List.ne_nil_of_mem (a := ((0 : ℕ), (1 : ℕ)))
  unfold scan_pairs
  rw [List.mem_flatten]
  refine ⟨(List.range' (0 + 1) (k - (0 + 1))).map (fun j => (0, j)), ?_, ?_⟩
  · rw [List.mem_map]
    exact ⟨0, by rw [List.mem_range]; omega, rfl⟩
  · rw [List.mem_map]
    refine ⟨1, by rw [List.mem_range'_1]; omega, rfl⟩

lemma sel_fold_isSome (dv : List ℚ) (n : ℕ) (cl : List Cluster) :
    ∀ (l : List (ℕ × ℕ)) (acc : Option (ℕ × ℕ × ℚ)), acc.isSome →
      (l.foldl (sel_fold dv n cl) acc).isSome := by
  intro l
  induction l with
  | nil => intro acc h; simpa using h
  | cons p tl ih =>
    intro acc h
    rw [List.foldl_cons]
    apply ih
    cases acc with
    | none => simp at h
    | some q =>
      dsimp only [sel_fold]
      split <;> rfl

lemma foldl_sel_mem (dv : List ℚ) (n : ℕ) (cl : List Cluster) :
    ∀ (l : List (ℕ × ℕ)) (acc : Option (ℕ × ℕ × ℚ)) (r : ℕ × ℕ × ℚ),
      l.foldl (sel_fold dv n cl) acc = some r →
      acc = some r ∨ (r.1, r.2.1) ∈ l := by
  intro l
  induction l with
  | nil => intro acc r h; exact Or.inl h
  | cons p tl ih =>
    intro acc r h
    rw [List.foldl_cons] at h
    rcases ih _ r h with hacc | hmem
    · cases acc with
      | none =>
        unfold sel_fold at hacc
        cases hacc
        exact Or.inr (by simp)
      | some q =>
        unfold sel_fold at hacc
        rcases ite_eq_iff.mp hacc with ⟨_, hq⟩ | ⟨_, hq⟩
        · cases hq
          exact Or.inr (by simp)
        · exact Or.inl hq
    · exact Or.inr (List.mem_cons_of_mem _ hmem)

lemma select_pair_some {dv : List ℚ} {n : ℕ} {cl : List Cluster}
    (h2 : 2 ≤ cl.length) :
    ∃ a b d, select_pair dv n cl = some (a, b, d) ∧ a < b ∧ b < cl.length := by
  obtain ⟨p, tl, hpt⟩ := List.exists_cons_of_ne_nil (scan_pairs_ne_nil h2)
  have hs : (select_pair dv n cl).isSome := by
    unfold select_pair
    rw [hpt, List.foldl_cons]
    apply sel_fold_isSome
    unfold sel_fold
    rfl
  obtain ⟨r, hr⟩ := Option.isSome_iff_exists.mp hs
  have hmem : (r.1, r.2.1) ∈ scan_pairs cl.length := by
    have := foldl_sel_mem dv n cl (scan_pairs cl.length) none r hr
    rcases this with h | h
    · cases h
    · exact h
  obtain ⟨hab, hbk⟩ := mem_scan_pairs hmem
  exact ⟨r.1, r.2.1, r.2.2, by simpa using hr, hab, hbk⟩

lemma select_pair_mem {dv : List ℚ} {n : ℕ} {cl : List Cluster}
    {a b : ℕ} {d : ℚ} (h : select_pair dv n cl = some (a, b, d)) :
    a < b ∧ b < cl.length := by
  have := foldl_sel_mem dv n cl (scan_pairs cl.length) none (a, b, d) h
  rcases this with h' | h'
  · cases h'
  · exact mem_scan_pairs h'

lemma mapM_eq_map {α β : Type} (f : α → Option β) (g : α → β) :
    ∀ l : List α, (∀ x ∈ l, f x = some (g x)) → l.mapM f = some (l.map g) := by
  intro l
  induction l with
  | nil => intro _; rfl
  | cons x tl ih =>
    intro h
    rw [List.mapM_cons, h x (by simp), ih (fun y hy => h y (by simp [hy]))]
    rfl

lemma range_decomp {a b k : ℕ} (hab : a < b) (hbk : b < k) :
    List.range k =
      List.range' 0 a ++ [a] ++ List.range' (a + 1) (b - a - 1) ++ [b] ++
        List.range' (b + 1) (k - b - 1) := by
  rw [List.range_eq_range']
  have e1 : List.range' 0 a ++ List.range' a (k - a) = List.range' 0 k := by
    have h := List.range'_append 0 a (k - a) 1
    simp only [one_mul, zero_add] at h
    rw [h]
    congr 1
    omega
  have e2 : List.range' a 1 ++ List.range' (a + 1) (k - a - 1) =
      List.range' a (k - a) := by
    have h := List.range'_append a 1 (k - a - 1) 1
    simp only [one_mul, mul_one] at h
    rw [h]
    congr 1
    omega
  have e3 : List.range' (a + 1) (b - a - 1) ++ List.range' b (k - b) =
      List.range' (a + 1) (k - a - 1) := by
    have h := List.range'_append (a + 1) (b - a - 1) (k - b) 1
    simp only [one_mul] at h
    rw [show a + 1 + (b - a - 1) = b by omega] at h
    rw [h]
    congr 1
    omega
  have e4 : List.range' b 1 ++ List.range' (b + 1) (k - b - 1) =
      List.range' b (k - b) := by
    have h := List.range'_append b 1 (k - b - 1) 1
    simp only [one_mul, mul_one] at h
    rw [h]
    congr 1
    omega
  rw [← e1, ← e2, ← e3, ← e4]
  simp [List.range'_one, List.append_assoc]

lemma range_filter_two {a b k : ℕ} (hab : a < b) (hbk : b < k) :
    (List.range k).filter (fun i => decide (i ≠ a ∧ i ≠ b)) =
      List.range' 0 a ++ List.range' (a + 1) (b - a - 1) ++
        List.range' (b + 1) (k - b - 1) := by
  rw [range_decomp hab hbk]
  simp only [List.filter_append]
  have f1 : (List.range' 0 a).filter (fun i => decide (i ≠ a ∧ i ≠ b)) =
      List.range' 0 a := by
    rw [List.filter_eq_self]
    intro x hx
    rw [List.mem_range'_1] at hx
    simp only [decide_eq_true_eq]
    omega
  have f2 : (List.range' (a + 1) (b - a - 1)).filter
      (fun i => decide (i ≠ a ∧ i ≠ b)) = List.range' (a + 1) (b - a - 1) := by
    rw [List.filter_eq_self]
    intro x hx
    rw [List.mem_range'_1] at hx
    simp only [decide_eq_true_eq]
    omega
  have f3 : (List.range' (b + 1) (k - b - 1)).filter
      (fun i => decide (i ≠ a ∧ i ≠ b)) = List.range' (b + 1) (k - b - 1) := by
    rw [List.filter_eq_self]
    intro x hx
    rw [List.mem_range'_1] at hx
    simp only [decide_eq_true_eq]
    omega
  have g1 : ([a] : List ℕ).filter (fun i => decide (i ≠ a ∧ i ≠ b)) = [] := by
    simp
  have g2 : ([b] : List ℕ).filter (fun i => decide (i ≠ a ∧ i ≠ b)) = [] := by
    simp
  rw [f1, f2, f3, g1, g2]
  simp

lemma range_perm_two {a b k : ℕ} (hab : a < b) (hbk : b < k) :
    List.Perm (List.range k)
      (a :: b :: ((List.range k).filter (fun i => decide (i ≠ a ∧ i ≠ b)))) := by
  rw [range_filter_two hab hbk]
  conv_lhs => rw [range_decomp hab hbk]
  have h1 : List.range' 0 a ++ [a] ++ List.range' (a + 1) (b - a - 1) ++ [b] ++
      List.range' (b + 1) (k - b - 1) =
      List.range' 0 a ++ (a :: (List.range' (a + 1) (b - a - 1) ++ [b] ++
        List.range' (b + 1) (k - b - 1))) := by
    simp [List.append_assoc]
  rw [h1]
  refine List.Perm.trans List.perm_middle (List.Perm.cons a ?_)
  have h2 : List.range' 0 a ++ (List.range' (a + 1) (b - a - 1) ++ [b] ++
      List.range' (b + 1) (k - b - 1)) =
      (List.range' 0 a ++ List.range' (a + 1) (b - a - 1)) ++
        (b :: List.range' (b + 1) (k - b - 1)) := by
    simp [List.append_assoc]
  rw [h2]
  exact List.Perm.trans List.perm_middle (List.Perm.refl _)

lemma map_getD_range' {α : Type} (l : List α) (d : α) (s m : ℕ)
    (h : s + m ≤ l.length) :
    (List.range' s m).map (fun i => l.getD i d) = (l.drop s).take m := by
  apply List.ext_getElem
  · simp only [List.length_map, List.length_range', List.length_take,
      List.length_drop]
    omega
  · intro i h1 h2
    simp only [List.length_map, List.length_range'] at h1
    rw [List.getElem_map]
    rw [List.getElem_take, List.getElem_drop]
    rw [List.getElem_range'_1]
    exact List.getD_eq_getElem l d (by omega)

lemma map_getD_range {α : Type} (l : List α) (d : α) :
    (List.range l.length).map (fun i => l.getD i d) = l := by
  rw [List.range_eq_range', map_getD_range' l d 0 l.length (by omega)]
  simp

lemma merge_clusters_survivors {l : List Cluster} {a b : ℕ} (hab : a < b)
    (hbl : b < l.length) (idx : ℕ) :
    merge_clusters l a b idx =
      (l.take a ++ (l.drop (a + 1)).take (b - a - 1) ++ l.drop (b + 1)) ++
        [(idx, (l.getD a (0, [])).2 ++ (l.getD b (0, [])).2)] := by
  unfold merge_clusters
  congr 1
  rw [range_filter_two hab hbl]
  rw [List.map_append, List.map_append]
  congr 1
  · congr 1
    · rw [map_getD_range' l (0, []) 0 a (by omega)]
      simp
    · exact map_getD_range' l (0, []) (a + 1) (b - a - 1) (by omega)
  · rw [map_getD_range' l (0, []) (b + 1) (l.length - b - 1) (by omega)]
    have hlen : l.length - b - 1 = (l.drop (b + 1)).length := by
      simp [List.length_drop]
      omega
    rw [hlen, List.take_length]

lemma merge_clusters_length {l : List Cluster} {a b : ℕ} (hab : a < b)
    (hbl : b < l.length) (idx : ℕ) :
    (merge_clusters l a b idx).length = l.length - 1 := by
  unfold merge_clusters
  rw [range_filter_two hab hbl]
  simp only [List.length_append, List.length_map, List.length_range',
    List.length_cons, List.length_nil]
  omega

lemma flatten_map_singleton {α : Type} (l : List α) :
    (l.map (fun x => [x])).flatten = l := by
  induction l with
  | nil => rfl
  | cons x tl ih => simp [ih]

lemma merge_clusters_members_perm {l : List Cluster} {a b : ℕ} (hab : a < b)
    (hbl : b < l.length) (idx : ℕ) :
    List.Perm (members_join (merge_clusters l a b idx)) (members_join l) := by
  have hl : (List.range l.length).map (fun i => l.getD i (0, [])) = l :=
    map_getD_range l (0, [])
  unfold members_join merge_clusters
  conv_rhs => rw [← hl]
  rw [List.map_map]
  have hperm := range_perm_two hab hbl
  refine List.Perm.trans ?_ (List.Perm.flatten (List.Perm.map _ hperm.symm))
  rw [List.map_cons, List.map_cons, List.flatten_cons, List.flatten_cons]
  rw [List.map_append, List.map_map, List.flatten_append]
  simp only [List.map_cons, List.map_nil, List.flatten_cons, List.flatten_nil,
    List.append_nil, Function.comp]
  refine List.Perm.trans (List.perm_append_comm) ?_
  rw [List.append_assoc]

lemma new_dist_eq_spec {method : String} {sqrtF : ℚ → ℚ} {ca cb ci : ℕ}
    {da db dab : ℚ} (hm : validMethod method) :
    new_dist method sqrtF ca cb ci da db dab =
      some (lanceWilliamsSpec method sqrtF ca cb ci da db dab) := by
  rcases hm with h | h | h | h | h <;> subst h <;> rfl

lemma update_matches_spec (dist_vector : List ℚ) (a b : ℕ)
    (clusters : List Cluster) (method : String) (sqrtF : ℚ → ℚ)
    (hm : validMethod method) :
    update_distance_matrix dist_vector a b clusters method sqrtF =
      some (((List.range clusters.length).filter
          (fun i => decide (i ≠ a ∧ i ≠ b))).map
        (fun i => lanceWilliamsSpec method sqrtF (cluster_size clusters a)
          (cluster_size clusters b) (cluster_size clusters i)
          (dist_vector.getD (condensed_index clusters.length a i) 0)
          (dist_vector.getD (condensed_index clusters.length b i) 0)
          (dist_vector.getD (condensed_index clusters.length a b) 0))) := by
  unfold update_distance_matrix
  exact mapM_eq_map _ _ _ (fun i _ => new_dist_eq_spec hm)

lemma step_eq {n : ℕ} {method : String} {sqrtF : ℚ → ℚ} {s : EngineState}
    {a b : ℕ} {d : ℚ} {nd : List ℚ}
    (hsel : select_pair s.dist_vector n s.clusters = some (a, b, d))
    (hupd : update_distance_matrix s.dist_vector a b s.clusters method sqrtF =
      some nd) :
    step n method sqrtF s = some
      { clusters := merge_clusters s.clusters a b s.index
        dist_vector := s.dist_vector.take (condensed_index n a b) ++
          s.dist_vector.drop (condensed_index n a b + 1) ++ nd
        linkage_matrix := s.linkage_matrix ++
          [⟨(s.clusters.getD a (0, [])).1, (s.clusters.getD b (0, [])).1, d,
            cluster_size s.clusters a + cluster_size s.clusters b⟩]
        index := s.index + 1 } := by
  unfold step
  rw [hsel]
  dsimp only
  rw [hupd]

lemma step_some {n : ℕ} {method : String} {sqrtF : ℚ → ℚ} {s : EngineState}
    (hm : validMethod method) (h2 : 2 ≤ s.clusters.length) :
    ∃ s', step n method sqrtF s = some s' ∧
      s'.clusters.length + 1 = s.clusters.length ∧
      s'.linkage_matrix.length = s.linkage_matrix.length + 1 ∧
      List.Perm (members_join s'.clusters) (members_join s.clusters) := by
  obtain ⟨a, b, d, hsel, hab, hbl⟩ := select_pair_some h2
  have hupd := update_matches_spec s.dist_vector a b s.clusters method sqrtF hm
  refine ⟨_, step_eq hsel hupd, ?_, ?_, ?_⟩
  · show (merge_clusters s.clusters a b s.index).length + 1 = s.clusters.length
    rw [merge_clusters_length hab hbl]
    omega
  · simp
  · exact merge_clusters_members_perm hab hbl s.index

lemma cluster_loop_spec (n : ℕ) (method : String) (sqrtF : ℚ → ℚ) (nc : ℕ)
    (hm : validMethod method) (h1 : 1 ≤ nc) :
    ∀ (fuel : ℕ) (s : EngineState), nc ≤ s.clusters.length →
      s.clusters.length ≤ fuel + nc →
      ∃ rows cl, cluster_loop n method sqrtF nc fuel s = some (rows, cl) ∧
        rows.length = s.linkage_matrix.length + (s.clusters.length - nc) ∧
        cl.length = nc ∧
        List.Perm (members_join cl) (members_join s.clusters) := by
  intro fuel
  induction fuel with
  | zero =>
    intro s hge hle
    have hstop : s.clusters.length ≤ nc := by omega
    refine ⟨s.linkage_matrix, s.clusters, ?_, by omega, by omega,
      List.Perm.refl _⟩
    unfold cluster_loop
    rw [if_pos hstop]
  | succ fuel ih =>
    intro s hge hle
    by_cases hstop : s.clusters.length ≤ nc
    · refine ⟨s.linkage_matrix, s.clusters, ?_, by omega, by omega,
        List.Perm.refl _⟩
      unfold cluster_loop
      rw [if_pos hstop]
    · have h2 : 2 ≤ s.clusters.length := by omega
      obtain ⟨s', hstep, hlen, hrow, hperm⟩ := step_some hm h2
      obtain ⟨rows, cl, hloop, hrl, hcl, hp2⟩ := ih s' (by omega) (by omega)
      refine ⟨rows, cl, ?_, by omega, hcl, hp2.trans hperm⟩
      unfold cluster_loop
      rw [if_neg hstop, hstep]
      exact hloop

/-! ## Claim theorems -/

/-- C8: for all `i, j` in `[0, n)` the condensed-index function is symmetric,
agrees with the upper-triangle packing formula `n·i − i·(i+1)/2 + (j−i−1)`
for `i < j`, and returns `0` for `i = j`. -/
theorem condensed_index_spec (n i j : ℕ) (hi : i < n) (hj : j < n) :
    condensed_index n i j = condensed_index n j i ∧
    (i < j → (condensed_index n i j : ℤ) =
      (n : ℤ) * i - i * (i + 1) / 2 + ((j : ℤ) - i - 1)) ∧
    (i = j → condensed_index n i j = 0) := by
  refine ⟨?_, ?_, ?_⟩
  · unfold condensed_index
    rcases Nat.lt_trichotomy i j with h | h | h
    · rw [if_pos h, if_neg (by omega), if_pos h]
    · subst h
      simp
    · rw [if_neg (by omega), if_pos h, if_pos h]
  · intro hij
    unfold condensed_index
    rw [if_pos hij]
    have hdvd : 2 ∣ i * (i + 1) := even_iff_two_dvd.mp (Nat.even_mul_succ_self i)
    have h2 : i * (i + 1) ≤ i * n := Nat.mul_le_mul_left i (by omega)
    have h4 : i * n = n * i := Nat.mul_comm i n
    have h5 : ((n * i : ℕ) : ℤ) = (n : ℤ) * i := by push_cast; ring
    have h6 : ((i * (i + 1) : ℕ) : ℤ) = (i : ℤ) * ((i : ℤ) + 1) := by
      push_cast; ring
    omega
  · intro h
    subst h
    simp [condensed_index]

/-- Witness for C8 at `n = 6`, `i = 2`, `j = 4`. -/
theorem condensed_index_spec_witness :
    condensed_index 6 2 4 = condensed_index 6 4 2 ∧
    (2 < 4 → (condensed_index 6 2 4 : ℤ) =
      (6 : ℤ) * 2 - 2 * (2 + 1) / 2 + ((4 : ℤ) - 2 - 1)) ∧
    (2 = 4 → condensed_index 6 2 4 = 0) :=
  condensed_index_spec 6 2 4 (by decide) (by decide)

/-- C9: for every valid method name, `update_distance_matrix` returns one new
distance per remaining slot `i ≠ a, b`, in the order the surviving slots are
re-enumerated, each equal to the Lance-Williams formula of the active method
applied to the pre-merge distances `d(a,i)`, `d(b,i)`, `d(a,b)` and the
cluster sizes. -/
theorem update_distance_matrix_matches_lw_spec (dist_vector : List ℚ)
    (a b : ℕ) (clusters : List Cluster) (method : String) (sqrtF : ℚ → ℚ)
    (hm : validMethod method) :
    update_distance_matrix dist_vector a b clusters method sqrtF =
      some (((List.range clusters.length).filter
          (fun i => decide (i ≠ a ∧ i ≠ b))).map
        (fun i => lanceWilliamsSpec method sqrtF (cluster_size clusters a)
          (cluster_size clusters b) (cluster_size clusters i)
          (dist_vector.getD (condensed_index clusters.length a i) 0)
          (dist_vector.getD (condensed_index clusters.length b i) 0)
          (dist_vector.getD (condensed_index clusters.length a b) 0))) :=
  update_matches_spec dist_vector a b clusters method sqrtF hm

/-- Witness for C9 with the `ward` method on a three-cluster state. -/
theorem update_distance_matrix_matches_lw_spec_witness :
    update_distance_matrix [3, 4, 5] 0 1 [(0, [0]), (1, [1]), (2, [2])]
      "ward" psqrt =
      some (((List.range ([(0, [0]), (1, [1]), (2, [2])] : List Cluster).length).filter
          (fun i => decide (i ≠ 0 ∧ i ≠ 1))).map
        (fun i => lanceWilliamsSpec "ward" psqrt
          (cluster_size [(0, [0]), (1, [1]), (2, [2])] 0)
          (cluster_size [(0, [0]), (1, [1]), (2, [2])] 1)
          (cluster_size [(0, [0]), (1, [1]), (2, [2])] i)
          (([3, 4, 5] : List ℚ).getD
            (condensed_index ([(0, [0]), (1, [1]), (2, [2])] : List Cluster).length 0 i) 0)
          (([3, 4, 5] : List ℚ).getD
            (condensed_index ([(0, [0]), (1, [1]), (2, [2])] : List Cluster).length 1 i) 0)
          (([3, 4, 5] : List ℚ).getD
            (condensed_index ([(0, [0]), (1, [1]), (2, [2])] : List Cluster).length 0 1) 0))) :=
  update_distance_matrix_matches_lw_spec [3, 4, 5] 0 1
    [(0, [0]), (1, [1]), (2, [2])] "ward" psqrt
    (Or.inr (Or.inr (Or.inr (Or.inr rfl))))

/-- C5: the centroid update passes its radicand to the square root WITHOUT
clamping negative values to zero: on this three-cluster state (with
`d(a,b) = 1` and `d(a,i) = d(b,i) = 0`) the argument handed to `np.sqrt` is
`−1/4 < 0`, so the floating-point code produces a not-a-number distance. -/
theorem centroid_update_no_clamp :
    ∀ sqrtF : ℚ → ℚ,
      update_distance_matrix [1, 0, 0] 0 1 [(0, [0]), (1, [1]), (2, [2])]
        "centroid" sqrtF = some [sqrtF (-(1 / 4))] ∧ (-(1 / 4) : ℚ) < 0 := by
  intro sqrtF
  constructor
  · with_unfolding_all rfl
  · norm_num

/-- Witness for C5: the unclamped update instantiated at `psqrt`. -/
theorem centroid_update_no_clamp_witness :
    update_distance_matrix [1, 0, 0] 0 1 [(0, [0]), (1, [1]), (2, [2])]
      "centroid" psqrt = some [psqrt (-(1 / 4))] ∧ (-(1 / 4) : ℚ) < 0 :=
  centroid_update_no_clamp psqrt

/-- C1: evaluation of the code on the four 1-D points 0, 1, 5, 6 with
`single` linkage and `num_clusters = 1`.  The first merge combines slots of
points 0 and 1 at distance 1, but the second recorded merge combines the
clusters of points 2 and 3 (the points 5 and 6) at distance 4 — NOT at their
true single-linkage distance 1 — because the pair-selection loop indexes the
spliced distance vector with condensed indices computed from the original
`n` and the clusters' first members.  (All square roots taken during this
run are of perfect squares 1, 16, 25, 36, on which `psqrt` agrees with the
real square root.) -/
theorem hc_four_points_single_run :
    hierarchical_clustering [[0], [1], [5], [6]] "single" psqrt 1 =
      some ([⟨0, 1, 1, 2⟩, ⟨2, 3, 4, 2⟩, ⟨4, 5, 4, 4⟩], [(6, [0, 1, 2, 3])]) := by
  with_unfolding_all decide

/-- C2: after the first merge of the same four-point run the distance vector
has length 7, not the condensed length `3·(3−1)/2 = 3` required for the 3
remaining active clusters, and the entry the selection loop will read for
the pair of slots (0, 1) — now occupied by the singleton clusters of points
2 and 3 — is 4, although the distance between points 5 and 6 is 1. -/
theorem step_breaks_condensed_invariant :
    ∃ s', step 4 "single" psqrt (initState [[0], [1], [5], [6]] psqrt) =
        some s' ∧
      s'.clusters.length = 3 ∧
      s'.dist_vector.length = 7 ∧
      s'.dist_vector.length ≠ 3 * (3 - 1) / 2 ∧
      s'.clusters.getD 0 (0, []) = (2, [2]) ∧
      s'.clusters.getD 1 (0, []) = (3, [3]) ∧
      s'.dist_vector.getD (condensed_index 4 (first_member s'.clusters 0)
        (first_member s'.clusters 1)) 0 = 4 ∧
      sqDist [5] [6] = 1 := by
  refine ⟨⟨[(2, [2]), (3, [3]), (4, [0, 1])], [5, 6, 4, 5, 1, 4, 5],
    [⟨0, 1, 1, 2⟩], 5⟩, ?_⟩
  with_unfolding_all decide

/-- C3: on degenerate input (`num_clusters ≥ N`) the loop runs zero
iterations, the linkage record is empty, and the final
`linkage_matrix[:, 2]` indexing of the 1-D empty `np.array([])` raises
`IndexError` (modelled by `none`) instead of returning the trivial record. -/
theorem hc_degenerate_input_raises :
    hierarchical_clustering [[0], [1]] "single" psqrt 2 = none ∧
    hierarchical_clustering [[0], [1]] "single" psqrt 3 = none ∧
    hierarchical_clustering ([] : List (List ℚ)) "single" psqrt 1 = none := by
  with_unfolding_all decide

/-- C4: an unknown method name is NOT rejected before computation begins.
With two points the whole run completes and returns a linkage record (the
update loop body never executes, so the bad name is never even examined);
with three points the error surfaces only in the middle of the first
iteration, inside `update_distance_matrix`, after pair selection and the
merge event were already computed. -/
theorem hc_unknown_method_not_fail_fast :
    hierarchical_clustering [[0], [7]] "notamethod" psqrt 1 =
      some ([⟨0, 1, 7, 2⟩], [(2, [0, 1])]) ∧
    hierarchical_clustering [[0], [1], [3]] "notamethod" psqrt 1 = none := by
  with_unfolding_all decide

/-- C6: whenever `hierarchical_clustering` returns, the linkage record it
returns is sorted by merge distance in ascending order. -/
theorem hc_record_sorted (data : List (List ℚ)) (method : String)
    (sqrtF : ℚ → ℚ) (nc : ℕ) (rows : List LinkRow) (cl : List Cluster)
    (h : hierarchical_clustering data method sqrtF nc = some (rows, cl)) :
    List.Sorted distLE rows := by
  unfold hierarchical_clustering at h
  rcases hres : cluster_loop data.length method sqrtF nc (data.length + 1)
      (initState data sqrtF) with _ | pr
  · rw [hres] at h
    cases h
  · rw [hres] at h
    obtain ⟨rows0, cl0⟩ := pr
    cases rows0 with
    | nil =>
      dsimp only at h
      cases h
    | cons r tl =>
      dsimp only at h
      injection h with h'
      obtain ⟨h1, h2⟩ := Prod.mk.inj h'
      rw [← h1]
      exact List.sorted_insertionSort distLE (r :: tl)

/-- Witness for C6: the record of the run on the three collinear points
0, 3, 10 with `complete` linkage is sorted by distance. -/
theorem hc_record_sorted_witness :
    List.Sorted distLE [⟨0, 1, 3, 2⟩, ⟨2, 3, 7, 3⟩] :=
  hc_record_sorted [[0], [3], [10]] "complete" psqrt 1
    [⟨0, 1, 3, 2⟩, ⟨2, 3, 7, 3⟩] [(4, [2, 0, 1])] (by with_unfolding_all decide)

/-- Counterexample for C7: at the boundary `num_clusters = N` (here `N = 3`)
the function raises (`IndexError` on the empty record's `[:, 2]` indexing)
instead of returning a Linkage Record of length `N − num_clusters = 0`. -/
theorem hc_target_count_boundary_raises :
    hierarchical_clustering [[0], [1], [5]] "single" psqrt 3 = none := by
  with_unfolding_all decide

/-- C7 (amended): for every valid method and `1 ≤ num_clusters < N` the
function returns, its Linkage Record has length exactly `N − num_clusters`,
and for `num_clusters = 1` the single final cluster's member-set is
`{0, …, N−1}`; for `num_clusters ≥ N` (including the boundary
`num_clusters = N` covered by the original claim) the function raises
instead of returning an empty record. -/
theorem hc_record_length :
    (∀ (data : List (List ℚ)) (method : String) (sqrtF : ℚ → ℚ) (nc : ℕ),
      validMethod method → 1 ≤ nc → nc < data.length →
      ∃ rows cl,
        hierarchical_clustering data method sqrtF nc = some (rows, cl) ∧
        rows.length = data.length - nc ∧
        (nc = 1 → ∃ c : Cluster, cl = [c] ∧
          ∀ m, m ∈ c.2 ↔ m < data.length)) ∧
    (∀ (data : List (List ℚ)) (method : String) (sqrtF : ℚ → ℚ) (nc : ℕ),
      1 ≤ nc → data.length ≤ nc →
      hierarchical_clustering data method sqrtF nc = none) := by
  constructor
  · intro data method sqrtF nc hm h1 hlt
    have hinit_len : (initState data sqrtF).clusters.length = data.length := by
      simp [initState]
    obtain ⟨rows, cl, hloop, hrl, hcl, hperm⟩ :=
      cluster_loop_spec data.length method sqrtF nc hm h1 (data.length + 1)
        (initState data sqrtF) (by rw [hinit_len]; omega)
        (by rw [hinit_len]; omega)
    rw [hinit_len] at hrl
    have hmj : members_join (initState data sqrtF).clusters =
        List.range data.length := by
      unfold members_join initState
      rw [List.map_map]
      exact flatten_map_singleton _
    have hrows_len : rows.length = data.length - nc := by
      simpa [initState] using hrl
    have hne : rows ≠ [] := by
      intro hnil
      rw [hnil] at hrows_len
      simp at hrows_len
      omega
    refine ⟨List.insertionSort distLE rows, cl, ?_, ?_, ?_⟩
    · unfold hierarchical_clustering
      rw [hloop]
      cases rows with
      | nil => exact absurd rfl hne
      | cons r tl => rfl
    · rw [List.length_insertionSort]
      exact hrows_len
    · intro hnc1
      subst hnc1
      obtain ⟨c, rfl⟩ := List.length_eq_one.mp hcl
      refine ⟨c, rfl, ?_⟩
      intro m
      have h2 : members_join [c] = c.2 := by
        unfold members_join
        simp
      rw [hmj] at hperm
      rw [← h2, hperm.mem_iff, List.mem_range]
  · intro data method sqrtF nc h1 hge
    unfold hierarchical_clustering
    have hstop : cluster_loop data.length method sqrtF nc (data.length + 1)
        (initState data sqrtF) =
        some ([], (initState data sqrtF).clusters) := by
      unfold cluster_loop
      rw [if_pos (by simp [initState]; omega)]
      rfl
    rw [hstop]

/-- Witness for C7: both clauses applied at concrete inputs. -/
theorem hc_record_length_witness :
    (∃ rows cl,
      hierarchical_clustering [[0], [2], [9]] "single" psqrt 1 =
        some (rows, cl) ∧
      rows.length = ([[0], [2], [9]] : List (List ℚ)).length - 1 ∧
      (1 = 1 → ∃ c : Cluster, cl = [c] ∧
        ∀ m, m ∈ c.2 ↔ m < ([[0], [2], [9]] : List (List ℚ)).length)) ∧
    hierarchical_clustering [[0], [2]] "complete" psqrt 5 = none :=
  ⟨hc_record_length.1 [[0], [2], [9]] "single" psqrt 1 (Or.inl rfl)
      (by decide) (by decide),
    hc_record_length.2 [[0], [2]] "complete" psqrt 5 (by decide) (by decide)⟩

/-- C10: every successful loop iteration removes exactly the two selected
slots `a < b` from the active-cluster list, preserves the relative order of
all surviving clusters, appends the single new cluster last with member
list `clusters[a][1] ++ clusters[b][1]` and identifier equal to the running
counter, and increments the counter by exactly one.  (The counter starts at
`N`: `initState` sets `index := data.length`.) -/
theorem step_merge_shape (n : ℕ) (method : String) (sqrtF : ℚ → ℚ)
    (s s' : EngineState) (h : step n method sqrtF s = some s') :
    ∃ a b d, select_pair s.dist_vector n s.clusters = some (a, b, d) ∧
      a < b ∧ b < s.clusters.length ∧
      s'.clusters =
        (s.clusters.take a ++ (s.clusters.drop (a + 1)).take (b - a - 1) ++
            s.clusters.drop (b + 1)) ++
          [(s.index, (s.clusters.getD a (0, [])).2 ++
            (s.clusters.getD b (0, [])).2)] ∧
      s'.index = s.index + 1 := by
  unfold step at h
  rcases hsel : select_pair s.dist_vector n s.clusters with _ | t
  · rw [hsel] at h
    cases h
  · rw [hsel] at h
    obtain ⟨a, b, d⟩ := t
    dsimp only at h
    rcases hupd : update_distance_matrix s.dist_vector a b s.clusters method
        sqrtF with _ | nd
    · rw [hupd] at h
      cases h
    · rw [hupd] at h
      obtain ⟨hab, hbl⟩ := select_pair_mem hsel
      injection h with h'
      refine ⟨a, b, d, rfl, hab, hbl, ?_, ?_⟩
      · rw [← h']
        exact merge_clusters_survivors hab hbl s.index
      · rw [← h']

/-- Witness for C10: the first iteration of the four-point run. -/
theorem step_merge_shape_witness :
    ∃ a b d,
      select_pair [1, 5, 6, 4, 5, 1] 4
        [(0, [0]), (1, [1]), (2, [2]), (3, [3])] = some (a, b, d) ∧
      a < b ∧ b < ([(0, [0]), (1, [1]), (2, [2]), (3, [3])] : List Cluster).length ∧
      ([(2, [2]), (3, [3]), (4, [0, 1])] : List Cluster) =
        (([(0, [0]), (1, [1]), (2, [2]), (3, [3])] : List Cluster).take a ++
            (([(0, [0]), (1, [1]), (2, [2]), (3, [3])] : List Cluster).drop
              (a + 1)).take (b - a - 1) ++
            ([(0, [0]), (1, [1]), (2, [2]), (3, [3])] : List Cluster).drop
              (b + 1)) ++
          [(4, (([(0, [0]), (1, [1]), (2, [2]), (3, [3])] : List Cluster).getD
              a (0, [])).2 ++
            (([(0, [0]), (1, [1]), (2, [2]), (3, [3])] : List Cluster).getD
              b (0, [])).2)] ∧
      (5 : ℕ) = 4 + 1 :=
  step_merge_shape 4 "single" psqrt
    ⟨[(0, [0]), (1, [1]), (2, [2]), (3, [3])], [1, 5, 6, 4, 5, 1], [], 4⟩
    ⟨[(2, [2]), (3, [3]), (4, [0, 1])], [5, 6, 4, 5, 1, 4, 5],
      [⟨0, 1, 1, 2⟩], 5⟩
    (by with_unfolding_all decide)
